import Mathlib

/-!
Shallow embedding of the govee2mqtt work-mode capability parser
(src/hass_mqtt/work_mode.rs) and of the staleness polling decision
(src/commands/serve.rs), together with the schema and device types
those modules consume.
-/

/-- JSON values as consumed by the capability parser. Numbers are modelled as
integers, the only numeric shape the work-mode code observes (via `as_i64`);
none of the verified properties involve float-valued numbers. -/
inductive JsonValue where
  | null
  | bool (b : Bool)
  | num (n : Int)
  | str (s : String)
  | arr (elems : List JsonValue)
  | obj (members : List (String × JsonValue))

/-- serde_json `Value::as_i64`: the integer of an integral number, `none` otherwise. -/
def JsonValue.as_i64 : JsonValue → Option Int
  | .num n => some n
  | _ => none

/-- Lowercase hex digit, as serde_json uses for `\u00XX` escapes. -/
def hexDigitChar (n : Nat) : Char :=
  if n < 10 then Char.ofNat (48 + n) else Char.ofNat (87 + n)

/-- serde_json string escaping: `"` and `\` are backslash-escaped, the control
characters BS, TAB, LF, FF, CR get their short escapes, other control
characters below 0x20 become `\u00XX` with lowercase hex. -/
def escapeChar (c : Char) : String :=
  if c = '"' then "\\\""
  else if c = '\\' then "\\\\"
  else if c = '\x08' then "\\b"
  else if c = '\x09' then "\\t"
  else if c = '\x0a' then "\\n"
  else if c = '\x0c' then "\\f"
  else if c = '\x0d' then "\\r"
  else if c.toNat < 0x20 then
    "\\u00" ++ String.singleton (hexDigitChar (c.toNat / 16))
      ++ String.singleton (hexDigitChar (c.toNat % 16))
  else String.singleton c

def escapeString (s : String) : String :=
  String.join (s.toList.map escapeChar)

def quoteString (s : String) : String :=
  "\"" ++ escapeString s ++ "\""

mutual
/-- serde_json `Value::to_string()`: the compact JSON rendering, used by
`add_values` for the textual form of an unnamed option's raw value. -/
def JsonValue.render : JsonValue → String
  | .null => "null"
  | .bool true => "true"
  | .bool false => "false"
  | .num n => toString n
  | .str s => quoteString s
  | .arr elems => "[" ++ renderElems elems ++ "]"
  | .obj members => "\x7b" ++ renderMembers members ++ "\x7d"

def renderElems : List JsonValue → String
  | [] => ""
  | [x] => JsonValue.render x
  | x :: y :: rest => JsonValue.render x ++ "," ++ renderElems (y :: rest)

def renderMembers : List (String × JsonValue) → String
  | [] => ""
  | [(k, v)] => quoteString k ++ ":" ++ JsonValue.render v
  | (k, v) :: m :: rest =>
    quoteString k ++ ":" ++ JsonValue.render v ++ "," ++ renderMembers (m :: rest)
end

/-- Lookup in an `extras` map (`HashMap<String, Value>` in the source; keys are
unique there, so first-match lookup is faithful). -/
def lookupKey : List (String × JsonValue) → String → Option JsonValue
  | [], _ => none
  | (k, v) :: rest, name => if k = name then some v else lookupKey rest name

/-- platform_api `EnumOption`: a named option with a value and an open-ended
vendor extension map. -/
structure EnumOption where
  name : String
  value : JsonValue
  extras : List (String × JsonValue)

mutual
/-- platform_api `DeviceParameters`: a parameter tree node is an Enum of
options or a Struct of named fields; `other` stands for the remaining
variants, which the work-mode parser ignores (its `match` has a `_ => {}` arm). -/
inductive DeviceParameters where
  | enum (options : List EnumOption)
  | struct' (fields : List StructField)
  | other

/-- platform_api `StructField`. -/
inductive StructField where
  | mk (field_name : String) (field_type : DeviceParameters)
      (default_value : Option JsonValue) (required : Bool)
end

def StructField.field_name : StructField → String
  | .mk n _ _ _ => n

def StructField.field_type : StructField → DeviceParameters
  | .mk _ t _ _ => t

/-- platform_api `DeviceCapability`: a kind tag, an instance name and an
optional parameter tree. -/
structure DeviceCapability where
  kind : String
  instance' : String
  parameters : Option DeviceParameters

/-- Modelled from the spec: `DeviceCapability::struct_field_by_name` lives in
the platform_api module, which is not among the sampled sources. Spec (section 6):
the parameter tree is either a Struct of `{field_name, field_type, ...}` fields or
an Enum of options; the lookup finds the named field of the Struct tree. -/
def DeviceCapability.struct_field_by_name (cap : DeviceCapability) (name : String) :
    Option StructField :=
  match cap.parameters with
  | some (.struct' fields) => fields.find? (fun f => f.field_name = name)
  | _ => none

/-- platform_api `HttpDeviceInfo`: the static cloud descriptor, carrying the
capability list. -/
structure HttpDeviceInfo where
  sku : String
  device : String
  capabilities : List DeviceCapability

/-- Modelled from the spec: `HttpDeviceInfo::capability_by_instance` lives in
the platform_api module, which is not among the sampled sources. It finds a
capability by its instance name. -/
def HttpDeviceInfo.capability_by_instance (info : HttpDeviceInfo) (name : String) :
    Option DeviceCapability :=
  info.capabilities.find? (fun c => c.instance' = name)

/-- A LAN discovery record; only its presence is inspected by the claims. -/
structure LanDevice where
  sku : String
  device : String

/-- The cloud state snapshot; `updated` is its timestamp in seconds. -/
structure DeviceState where
  updated : Int

/-- service `Device`: the merged per-device view, with the fields the sampled
code reads. -/
structure Device where
  sku : String
  id : String
  http_device_info : Option HttpDeviceInfo
  http_device_state : Option DeviceState
  lan_device : Option LanDevice

/-- Modelled from the spec: `Device::device_state` is defined in
service/device.rs, which is not among the sampled sources; spec (section 3) says a
device's freshness is defined solely by `http_device_state.updated`, with
absent state infinitely stale. -/
def Device.device_state (d : Device) : Option DeviceState :=
  d.http_device_state

/-- The staleness test of `poll_single_device` (serve.rs lines 21-24): state
absent, or `now - updated` exceeds 900 seconds. -/
def needs_update (now : Int) (d : Device) : Bool :=
  match d.device_state with
  | none => true
  | some st => decide (now - st.updated > 900)

/-- The fetch decision of `poll_single_device` (serve.rs lines 18-58): a cloud
single-device state fetch is issued iff the device needs an update, has no LAN
record, a platform client is configured and the cloud descriptor is present. -/
def poll_single_device_fetches (hasPlatformClient : Bool) (now : Int) (d : Device) : Bool :=
  if !needs_update now d then false
  else if d.lan_device.isSome then false
  else if hasPlatformClient then d.http_device_info.isSome
  else false

/-- One pass of `periodic_state_poll` (serve.rs lines 62-67): the snapshot is
walked once and a fetch is issued exactly for the devices the decision selects. -/
def poll_cycle_fetches (hasPlatformClient : Bool) (now : Int) (devices : List Device) :
    List Device :=
  devices.filter (poll_single_device_fetches hasPlatformClient now)

/-- work_mode.rs `WorkModeValue`. -/
structure WorkModeValue where
  value : JsonValue
  name : Option String
  computed_label : String

/-- A half-open `Range<i64>` (`start..stop`). -/
structure IRange where
  start : Int
  stop : Int

/-- work_mode.rs `WorkMode`. -/
structure WorkMode where
  name : String
  value : JsonValue
  label : String
  values : List WorkModeValue
  value_range : Option IRange

/-- The `ModeRange` deserialization target inside `add_values`. -/
structure ModeRange where
  min : Int
  max : Int

/-- serde `from_value::<ModeRange>`: succeeds on an object whose `min` and
`max` members are integral numbers (extra members are ignored, as serde does
without `deny_unknown_fields`). -/
def parseModeRange : JsonValue → Option ModeRange
  | .obj members =>
    match lookupKey members "min" with
    | none => none
    | some mn =>
      match lookupKey members "max" with
      | none => none
      | some mx =>
        match mn.as_i64, mx.as_i64 with
        | some mni, some mxi => some ⟨mni, mxi⟩
        | _, _ => none
  | _ => none

/-- The `ModeOption` deserialization target inside `add_values`. -/
structure ModeOption where
  name : Option String
  value : JsonValue

/-- serde handling of the optional `name` member: missing or `null` gives
`none`, a string gives `some`, anything else is a deserialization error. -/
def parseOptName : Option JsonValue → Option (Option String)
  | none => some none
  | some .null => some none
  | some (.str s) => some (some s)
  | some _ => none

/-- serde `ModeOption` element deserialization: an object with a required
`value` member and an optional string `name` member. -/
def parseModeOption : JsonValue → Option ModeOption
  | .obj members =>
    match parseOptName (lookupKey members "name") with
    | none => none
    | some nm =>
      match lookupKey members "value" with
      | none => none
      | some v => some ⟨nm, v⟩
  | _ => none

def parseModeOptionList : List JsonValue → Option (List ModeOption)
  | [] => some []
  | x :: xs =>
    match parseModeOption x with
    | none => none
    | some o =>
      match parseModeOptionList xs with
      | none => none
      | some os => some (o :: os)

/-- serde `from_value::<Vec<ModeOption>>`: an array each of whose elements
deserializes as a `ModeOption`. -/
def parseModeOptions : JsonValue → Option (List ModeOption)
  | .arr elems => parseModeOptionList elems
  | _ => none

/-- The collection loop of `contiguous_value_range` (work_mode.rs lines
233-242): per entry, first `as_i64()?`, then abort with `None` on any named
entry. -/
def collectValues : List WorkModeValue → Option (List Int)
  | [] => some []
  | v :: rest =>
    match v.value.as_i64 with
    | none => none
    | some i =>
      match v.name with
      | some _ => none
      | none =>
        match collectValues rest with
        | none => none
        | some restInts => some (i :: restInts)

/-- Ascending insertion, giving the same sorted vector as Rust's `sort()`. -/
def insertInt (x : Int) : List Int → List Int
  | [] => [x]
  | y :: ys => if x ≤ y then x :: y :: ys else y :: insertInt x ys

/-- The effect of `values.sort()`: the ascending reordering of the list. -/
def sortInts : List Int → List Int
  | [] => []
  | x :: xs => insertInt x (sortInts xs)

/-- `values.iter().min()`. -/
def listMin : List Int → Option Int
  | [] => none
  | x :: rest =>
    some (match listMin rest with
      | none => x
      | some m => min x m)

/-- `values.iter().max()`. -/
def listMax : List Int → Option Int
  | [] => none
  | x :: rest =>
    some (match listMax rest with
      | none => x
      | some m => max x m)

/-- The verification loop of `contiguous_value_range` (work_mode.rs lines
248-254): walk the sorted values expecting `min, min+1, ...`. -/
def checkRun (expect : Int) : List Int → Bool
  | [] => true
  | x :: xs => if x = expect then checkRun (expect + 1) xs else false

/-- work_mode.rs `WorkMode::contiguous_value_range`. -/
def WorkMode.contiguous_value_range (wm : WorkMode) : Option IRange :=
  match wm.value_range with
  | some r => some r
  | none =>
    match collectValues wm.values with
    | none => none
    | some vals =>
      let sorted := sortInts vals
      match listMin sorted, listMax sorted with
      | some mn, some mx => if checkRun mn sorted then some ⟨mn, mx + 1⟩ else none
      | _, _ => none

/-- work_mode.rs `WorkMode::should_show_as_preset`. -/
def WorkMode.should_show_as_preset (wm : WorkMode) : Bool :=
  wm.contiguous_value_range.isNone && wm.values.isEmpty

/-- work_mode.rs `WorkMode::label()`: the `label` field unless empty, the
`name` otherwise. -/
def WorkMode.label' (wm : WorkMode) : String :=
  if wm.label = "" then wm.name else wm.label

/-- The push loop of `add_values` (work_mode.rs lines 196-202): one
`WorkModeValue` per decoded option, appended to any already-present values. -/
def WorkMode.push_values (wm : WorkMode) (options : List ModeOption) : WorkMode :=
  { wm with values := wm.values ++
      options.map (fun (o : ModeOption) => (⟨o.value, o.name, ""⟩ : WorkModeValue)) }

/-- The label-update loop of `add_values` (work_mode.rs lines 208-216): every
discrete value's `computed_label` becomes
`"Activate {mode} Preset {name-or-value}"`. -/
def WorkMode.relabel (wm : WorkMode) : WorkMode :=
  { wm with values := wm.values.map (fun (v : WorkModeValue) =>
      { v with computed_label := "Activate " ++ wm.name ++ " Preset " ++
          (match v.name with
           | some n => n
           | none => v.value.render) }) }

/-- work_mode.rs `WorkMode::add_values`: a well-formed `range` extra wins and
returns at once; otherwise a well-formed `options` extra appends discrete
values, which are converted to a range when contiguous and relabelled when not. -/
def WorkMode.add_values (wm : WorkMode) (opt : EnumOption) : WorkMode :=
  match (lookupKey opt.extras "range").bind parseModeRange with
  | some r => { wm with value_range := some ⟨r.min, r.max + 1⟩ }
  | none =>
    match (lookupKey opt.extras "options").bind parseModeOptions with
    | none => wm
    | some options =>
      match (wm.push_values options).contiguous_value_range with
      | some range => { wm.push_values options with values := [], value_range := some range }
      | none => (wm.push_values options).relabel

/-- work_mode.rs `ParsedWorkMode`: the name-keyed mode collection. The
`BTreeMap` is embedded as an association list with replace-on-insert; every
claim reads it through `getMode`, whose semantics agree with the map's. -/
structure ParsedWorkMode where
  modes : List (String × WorkMode)

/-- `BTreeMap::get`. -/
def getMode : List (String × WorkMode) → String → Option WorkMode
  | [], _ => none
  | (k, v) :: rest, name => if k = name then some v else getMode rest name

/-- `BTreeMap::insert` (replace the value if the key is present). -/
def insertMode (key : String) (v : WorkMode) :
    List (String × WorkMode) → List (String × WorkMode)
  | [] => [(key, v)]
  | (k, v') :: rest =>
    if k = key then (key, v) :: rest else (k, v') :: insertMode key v rest

/-- The effect of `get_mut(key).map(f)`: rewrite the entry at `key` when
present, do nothing otherwise. -/
def updateMode (key : String) (f : WorkMode → WorkMode) :
    List (String × WorkMode) → List (String × WorkMode)
  | [] => []
  | (k, v) :: rest =>
    if k = key then (k, f v) :: updateMode key f rest
    else (k, v) :: updateMode key f rest

/-- work_mode.rs `ParsedWorkMode::add`: insert a mode with the given name and
value and defaulted remaining fields. -/
def ParsedWorkMode.add (pw : ParsedWorkMode) (name : String) (value : JsonValue) :
    ParsedWorkMode :=
  ⟨insertMode name ⟨name, value, "", [], none⟩ pw.modes⟩

/-- work_mode.rs `ParsedWorkMode::mode_by_name`. -/
def ParsedWorkMode.mode_by_name (pw : ParsedWorkMode) (name : String) : Option WorkMode :=
  getMode pw.modes name

/-- Phase 1 of `with_capability` (work_mode.rs lines 35-42): one fresh mode per
`workMode` enum option; any other parameter shape contributes nothing. -/
def initialModes (wmf : StructField) : ParsedWorkMode :=
  match wmf.field_type with
  | .enum options => options.foldl (fun pw opt => pw.add opt.name opt.value) ⟨[]⟩
  | _ => ⟨[]⟩

/-- The `modeValue` enum options of a capability, empty when the field is
absent or not an Enum (work_mode.rs lines 44-56). -/
def modeValueOptions (cap : DeviceCapability) : List EnumOption :=
  match cap.struct_field_by_name "modeValue" with
  | some mv =>
    match mv.field_type with
    | .enum options => options
    | _ => []
  | none => []

/-- One step of phase 2 of `with_capability` (work_mode.rs lines 47-52):
`add_values` is applied to the mode whose name matches, when there is one. -/
def applyModeValue (pw : ParsedWorkMode) (opt : EnumOption) : ParsedWorkMode :=
  match getMode pw.modes opt.name with
  | some _ => ⟨updateMode opt.name (fun m => m.add_values opt) pw.modes⟩
  | none => pw

/-- work_mode.rs `ParsedWorkMode::with_capability`. -/
def ParsedWorkMode.with_capability (cap : DeviceCapability) :
    Except String ParsedWorkMode :=
  match cap.struct_field_by_name "workMode" with
  | none => .error "workMode not found"
  | some wmf => .ok ((modeValueOptions cap).foldl applyModeValue (initialModes wmf))

/-- The default-branch assignment of `adjust_for_device` (work_mode.rs line
89): `mode.label = mode.name.clone()`. -/
def setLabelToName (m : WorkMode) : WorkMode :=
  { m with label := m.name }

/-- work_mode.rs `ParsedWorkMode::adjust_for_device`. -/
def ParsedWorkMode.adjust_for_device (pw : ParsedWorkMode) (sku : String) :
    ParsedWorkMode :=
  if sku = "H7160" ∨ sku = "H7143" then
    ⟨updateMode "Manual" (fun m => { m with label := "Manual: Mist Level" }) pw.modes⟩
  else if sku = "H7131" then
    ⟨updateMode "gearMode" (fun m => { m with label := "Heat" }) pw.modes⟩
  else
    ⟨pw.modes.map (fun p => (p.1, setLabelToName p.2))⟩

/-- work_mode.rs `ParsedWorkMode::with_device`. -/
def ParsedWorkMode.with_device (device : Device) : Except String ParsedWorkMode :=
  match device.http_device_info with
  | none => .error "no platform state, so no known work mode"
  | some info =>
    match info.capability_by_instance "workMode" with
    | none => .error "device has no workMode capability"
    | some cap =>
      match ParsedWorkMode.with_capability cap with
      | .error e => .error e
      | .ok parsed => .ok (parsed.adjust_for_device device.sku)

/-- Whether a parse result is an error. -/
def isErr : Except String ParsedWorkMode → Bool
  | .error _ => true
  | .ok _ => false

/-- Spec-side predicate for C1, following the spec's words: the sorted values
form an unbroken run of consecutive integers. -/
def unbrokenRun : List Int → Bool
  | a :: b :: rest => decide (a + 1 = b) && unbrokenRun (b :: rest)
  | _ => true

/-- Ascending sortedness of a list of integers. -/
def sortedLe : List Int → Bool
  | a :: b :: rest => decide (a ≤ b) && sortedLe (b :: rest)
  | _ => true

/-- The capability of the repository's `test_work_mode_parser` test: one mode
`Normal` with value 1, and a `modeValue` entry listing the unnamed values 1..8. -/
def scenarioACap : DeviceCapability :=
  { kind := "devices.capabilities.work_mode"
    instance' := "workMode"
    parameters := some (.struct'
      [ .mk "workMode" (.enum [⟨"Normal", .num 1, []⟩]) none true
      , .mk "modeValue" (.enum
          [ ⟨"Normal", .null,
              [("options", .arr
                [ .obj [("value", .num 1)], .obj [("value", .num 2)]
                , .obj [("value", .num 3)], .obj [("value", .num 4)]
                , .obj [("value", .num 5)], .obj [("value", .num 6)]
                , .obj [("value", .num 7)], .obj [("value", .num 8)] ])] ⟩ ]) none true ]) }

/-- The capability of `test_work_mode_parser3`: values 1, 2, 4 with a hole at 3. -/
def scenarioBCap : DeviceCapability :=
  { kind := "devices.capabilities.work_mode"
    instance' := "workMode"
    parameters := some (.struct'
      [ .mk "workMode" (.enum [⟨"Normal", .num 1, []⟩]) none true
      , .mk "modeValue" (.enum
          [ ⟨"Normal", .null,
              [("options", .arr
                [ .obj [("value", .num 1)], .obj [("value", .num 2)]
                , .obj [("value", .num 4)] ])] ⟩ ]) none true ]) }

/-- A capability with two `modeValue` entries for the same mode `Normal`: first
a gapped option list (1, 2, 4), then a well-formed range descriptor. -/
def dupCap : DeviceCapability :=
  { kind := "devices.capabilities.work_mode"
    instance' := "workMode"
    parameters := some (.struct'
      [ .mk "workMode" (.enum [⟨"Normal", .num 1, []⟩]) none true
      , .mk "modeValue" (.enum
          [ ⟨"Normal", .null,
              [("options", .arr
                [ .obj [("value", .num 1)], .obj [("value", .num 2)]
                , .obj [("value", .num 4)] ])] ⟩
          , ⟨"Normal", .null,
              [("range", .obj [("min", .num 1), ("max", .num 5)])] ⟩ ]) none true ]) }

theorem getMode_insertMode (key : String) (v : WorkMode)
    (m : List (String × WorkMode)) (n : String) :
    getMode (insertMode key v m) n = if key = n then some v else getMode m n := by
  induction m with
  | nil => simp [insertMode, getMode]
  | cons p rest ih =>
    obtain ⟨k, w⟩ := p
    simp only [insertMode]
    by_cases hk : k = key
    · subst hk
      simp only [if_pos rfl, getMode]
      by_cases hn : k = n
      · simp [hn]
      · simp [getMode, hn]
    · rw [if_neg hk]
      simp only [getMode]
      by_cases hn : k = n
      · have hkey : ¬(key = n) := fun h => hk (hn.trans h.symm)
        simp [hn, hkey]
      · simp [hn, ih]

theorem getMode_updateMode (key : String) (f : WorkMode → WorkMode)
    (m : List (String × WorkMode)) (n : String) :
    getMode (updateMode key f m) n =
      if n = key then (getMode m key).map f else getMode m n := by
  induction m with
  | nil => simp [updateMode, getMode]
  | cons p rest ih =>
    obtain ⟨k, w⟩ := p
    simp only [updateMode]
    by_cases hk : k = key
    · rw [if_pos hk]
      subst hk
      simp only [getMode]
      by_cases hn : n = k
      · subst hn
        simp
      · have hn' : ¬(k = n) := fun h => hn h.symm
        simp [hn, hn', ih]
    · rw [if_neg hk]
      simp only [getMode]
      by_cases hn : n = k
      · subst hn
        simp [getMode, hk]
      · have hn' : ¬(k = n) := fun h => hn h.symm
        simp [getMode, hn, hn', hk, ih]

theorem getMode_applyModeValue (pw : ParsedWorkMode) (opt : EnumOption) (n : String) :
    getMode (applyModeValue pw opt).modes n =
      if n = opt.name then
        (getMode pw.modes opt.name).map (fun m => m.add_values opt)
      else getMode pw.modes n := by
  unfold applyModeValue
  cases h : getMode pw.modes opt.name with
  | none =>
    by_cases hn : n = opt.name
    · subst hn; simp [h]
    · simp [hn]
  | some w => simp [getMode_updateMode, h]

theorem getMode_foldl_not_mem (opts : List EnumOption) (pw : ParsedWorkMode) (n : String)
    (hn : n ∉ opts.map EnumOption.name) :
    getMode (opts.foldl applyModeValue pw).modes n = getMode pw.modes n := by
  induction opts generalizing pw with
  | nil => rfl
  | cons opt rest ih =>
    simp only [List.map_cons, List.mem_cons, not_or] at hn
    simp only [List.foldl_cons]
    rw [ih _ hn.2, getMode_applyModeValue, if_neg hn.1]

theorem getMode_foldl_inv (P : WorkMode → Prop)
    (hpres : ∀ wm opt, P wm → P (wm.add_values opt))
    (opts : List EnumOption) (pw : ParsedWorkMode)
    (h0 : ∀ n wm, getMode pw.modes n = some wm → P wm) :
    ∀ n wm, getMode (opts.foldl applyModeValue pw).modes n = some wm → P wm := by
  induction opts generalizing pw with
  | nil => exact h0
  | cons opt rest ih =>
    simp only [List.foldl_cons]
    apply ih
    intro n wm h
    rw [getMode_applyModeValue] at h
    by_cases hn : n = opt.name
    · rw [if_pos hn] at h
      obtain ⟨w0, hw0, rfl⟩ := Option.map_eq_some'.mp h
      exact hpres _ _ (h0 _ _ hw0)
    · rw [if_neg hn] at h
      exact h0 _ _ h

theorem getMode_add (pw : ParsedWorkMode) (name : String) (value : JsonValue) (n : String) :
    getMode (pw.add name value).modes n =
      if name = n then some ⟨name, value, "", [], none⟩ else getMode pw.modes n :=
  getMode_insertMode name _ pw.modes n

theorem getMode_foldl_add (opts : List EnumOption) (pw : ParsedWorkMode)
    (h0 : ∀ n wm, getMode pw.modes n = some wm →
      wm.label = "" ∧ wm.values = [] ∧ wm.value_range = none) :
    ∀ n wm,
      getMode ((opts.foldl (fun pw opt => ParsedWorkMode.add pw opt.name opt.value) pw)).modes n
        = some wm →
      wm.label = "" ∧ wm.values = [] ∧ wm.value_range = none := by
  induction opts generalizing pw with
  | nil => exact h0
  | cons opt rest ih =>
    simp only [List.foldl_cons]
    apply ih
    intro n wm h
    rw [getMode_add] at h
    by_cases hn : opt.name = n
    · rw [if_pos hn] at h
      injection h with h
      subst h
      exact ⟨rfl, rfl, rfl⟩
    · rw [if_neg hn] at h
      exact h0 _ _ h

theorem getMode_initialModes (wmf : StructField) (n : String) (wm : WorkMode)
    (h : getMode (initialModes wmf).modes n = some wm) :
    wm.label = "" ∧ wm.values = [] ∧ wm.value_range = none := by
  unfold initialModes at h
  split at h
  · exact getMode_foldl_add _ ⟨[]⟩ (fun n wm h => by simp [getMode] at h) n wm h
  · simp [getMode] at h

theorem add_values_label (wm : WorkMode) (opt : EnumOption) :
    (wm.add_values opt).label = wm.label := by
  unfold WorkMode.add_values
  split
  · rfl
  · split
    · rfl
    · split <;> rfl

theorem add_values_name (wm : WorkMode) (opt : EnumOption) :
    (wm.add_values opt).name = wm.name := by
  unfold WorkMode.add_values
  split
  · rfl
  · split
    · rfl
    · split <;> rfl

theorem contiguous_value_range_fresh (wm : WorkMode)
    (hv : wm.values = []) (hr : wm.value_range = none) :
    wm.contiguous_value_range = none := by
  unfold WorkMode.contiguous_value_range
  rw [hr, hv]
  rfl

theorem add_values_excl (wm : WorkMode) (opt : EnumOption)
    (hv : wm.values = []) (hr : wm.value_range = none) :
    (wm.add_values opt).value_range = none ∨ (wm.add_values opt).values = [] := by
  unfold WorkMode.add_values
  split
  · right; exact hv
  · split
    · left; exact hr
    · split
      · right; rfl
      · left; exact hr

theorem foldl_applyModeValue_excl :
    ∀ (opts : List EnumOption) (pw : ParsedWorkMode),
      (opts.map EnumOption.name).Nodup →
      (∀ n wm, getMode pw.modes n = some wm → n ∈ opts.map EnumOption.name →
        wm.values = [] ∧ wm.value_range = none) →
      (∀ n wm, getMode pw.modes n = some wm → wm.value_range = none ∨ wm.values = []) →
      ∀ n wm, getMode (opts.foldl applyModeValue pw).modes n = some wm →
        wm.value_range = none ∨ wm.values = []
  | [], _, _, _, hexcl => hexcl
  | opt :: rest, pw, hnodup, hfresh, hexcl => by
    simp only [List.map_cons, List.nodup_cons] at hnodup
    simp only [List.foldl_cons]
    refine foldl_applyModeValue_excl rest _ hnodup.2 ?_ ?_
    · intro n wm h hn
      have hne : n ≠ opt.name := fun e => hnodup.1 (e ▸ hn)
      rw [getMode_applyModeValue, if_neg hne] at h
      exact hfresh n wm h (by simp [hn])
    · intro n wm h
      rw [getMode_applyModeValue] at h
      by_cases hn : n = opt.name
      · rw [if_pos hn] at h
        obtain ⟨w0, hw0, rfl⟩ := Option.map_eq_some'.mp h
        have hf := hfresh opt.name w0 hw0 (by simp)
        exact add_values_excl w0 opt hf.1 hf.2
      · rw [if_neg hn] at h
        exact hexcl n wm h

theorem with_capability_ok (cap : DeviceCapability) (pw : ParsedWorkMode)
    (hok : ParsedWorkMode.with_capability cap = .ok pw) :
    ∃ wmf, cap.struct_field_by_name "workMode" = some wmf ∧
      pw = (modeValueOptions cap).foldl applyModeValue (initialModes wmf) := by
  unfold ParsedWorkMode.with_capability at hok
  cases hwmf : cap.struct_field_by_name "workMode" with
  | none => rw [hwmf] at hok; exact Except.noConfusion hok
  | some wmf =>
    rw [hwmf] at hok
    injection hok with h
    exact ⟨wmf, rfl, h.symm⟩

/-- C3 counterexample: for the capability `dupCap`, whose `modeValue` entries
repeat the mode name `Normal` (a gapped option list first, then a range
descriptor), `with_capability` produces a `Normal` mode carrying a populated
`value_range` AND a non-empty `values` list simultaneously, contradicting the
claimed invariant. -/
theorem with_capability_exclusive_cex :
    (ParsedWorkMode.with_capability dupCap).map
      (fun pw => (getMode pw.modes "Normal").map
        (fun wm => (wm.value_range.isSome, wm.values.isEmpty)))
      = .ok (some (true, false)) := rfl

/-- C3 (amended): for every capability whose `modeValue` entries carry pairwise
distinct mode names, no WorkMode produced by `with_capability` has a populated
`value_range` and a non-empty `values` list simultaneously. -/
theorem with_capability_exclusive (cap : DeviceCapability)
    (pw : ParsedWorkMode) (n : String) (wm : WorkMode)
    (hnodup : ((modeValueOptions cap).map EnumOption.name).Nodup)
    (hok : ParsedWorkMode.with_capability cap = .ok pw)
    (hget : getMode pw.modes n = some wm) :
    ¬(wm.value_range.isSome = true ∧ wm.values ≠ []) := by
  obtain ⟨wmf, hwmf, rfl⟩ := with_capability_ok cap pw hok
  have h := foldl_applyModeValue_excl (modeValueOptions cap) (initialModes wmf) hnodup
    (fun n wm h _ => (getMode_initialModes wmf n wm h).2)
    (fun n wm h => Or.inl (getMode_initialModes wmf n wm h).2.2)
    n wm hget
  rcases h with h | h
  · rintro ⟨hs, _⟩
    rw [h] at hs
    cases hs
  · rintro ⟨_, hv⟩
    exact hv h

def scenarioAParsed : ParsedWorkMode :=
  ⟨[("Normal", ⟨"Normal", .num 1, "", [], some ⟨1, 9⟩⟩)]⟩

theorem with_capability_exclusive_witness :
    ¬((⟨"Normal", JsonValue.num 1, "", [], some ⟨1, 9⟩⟩ : WorkMode).value_range.isSome = true ∧
      (⟨"Normal", JsonValue.num 1, "", [], some ⟨1, 9⟩⟩ : WorkMode).values ≠ []) :=
  with_capability_exclusive scenarioACap scenarioAParsed "Normal" _ (by decide) rfl rfl

/-- A WorkMode whose `value_range` is already populated while its discrete
values carry names; reachable from `with_capability` via repeated `modeValue`
entries, and a direct counterexample to C4 as stated. -/
def namedRangeMode : WorkMode :=
  ⟨"Custom", .num 9, "",
    [⟨.num 1, some "Low", ""⟩, ⟨.num 2, some "High", ""⟩], some ⟨1, 3⟩⟩

/-- C4 counterexample: a WorkMode whose discrete value list carries names but
whose `value_range` is already set; `contiguous_value_range` returns the set
range, not `None`. -/
theorem contiguous_named_cex :
    namedRangeMode.values.any (fun v => v.name.isSome) = true ∧
      namedRangeMode.contiguous_value_range = some ⟨1, 3⟩ :=
  ⟨rfl, rfl⟩

theorem collectValues_named_none (values : List WorkModeValue)
    (h : ∃ v ∈ values, v.name.isSome = true) :
    collectValues values = none := by
  induction values with
  | nil => simp at h
  | cons v rest ih =>
    simp only [collectValues]
    obtain ⟨w, hw, hname⟩ := h
    rcases List.mem_cons.mp hw with rfl | hw'
    · cases hvi : w.value.as_i64 with
      | none => rfl
      | some i =>
        cases hn : w.name with
        | none => rw [hn] at hname; cases hname
        | some s => rfl
    · cases hvi : v.value.as_i64 with
      | none => rfl
      | some i =>
        cases hn : v.name with
        | some s => rfl
        | none => rw [ih ⟨w, hw', hname⟩]

/-- C4 (amended): provided the WorkMode's `value_range` is not already set, if
any entry in its discrete value list carries a name then
`contiguous_value_range` returns `None`, even when the entries' integer values
are numerically contiguous. -/
theorem contiguous_none_of_named (wm : WorkMode)
    (hr : wm.value_range = none)
    (h : ∃ v ∈ wm.values, v.name.isSome = true) :
    wm.contiguous_value_range = none := by
  unfold WorkMode.contiguous_value_range
  rw [hr, collectValues_named_none wm.values h]

/-- A named but numerically contiguous value list with no range set. -/
def namedContigMode : WorkMode :=
  ⟨"Custom", .num 9, "",
    [⟨.num 1, some "Low", ""⟩, ⟨.num 2, some "High", ""⟩], none⟩

theorem contiguous_none_of_named_witness :
    namedContigMode.contiguous_value_range = none :=
  contiguous_none_of_named namedContigMode rfl
    ⟨⟨.num 1, some "Low", ""⟩, by simp [namedContigMode], rfl⟩

/-- C5: whenever the `extras` of a `modeValue` option contain a `range` entry
that parses as a `{min, max}` descriptor, `add_values` sets
`value_range = min..max+1` and changes nothing else — in particular it
performs no discrete-value processing, regardless of any sibling `options`
data in the same extras map. -/
theorem add_values_range_precedence (wm : WorkMode) (opt : EnumOption)
    (r : JsonValue) (mr : ModeRange)
    (hlk : lookupKey opt.extras "range" = some r)
    (hparse : parseModeRange r = some mr) :
    wm.add_values opt = { wm with value_range := some ⟨mr.min, mr.max + 1⟩ } := by
  have hbind : (lookupKey opt.extras "range").bind parseModeRange = some mr := by
    rw [hlk]; exact hparse
  unfold WorkMode.add_values
  rw [hbind]

/-- An option whose extras hold both a well-formed range and sibling options. -/
def rangeAndOptionsOpt : EnumOption :=
  ⟨"Manual", .null,
    [("range", .obj [("min", .num 1), ("max", .num 10)]),
     ("options", .arr [.obj [("value", .num 3)]])]⟩

def freshManualMode : WorkMode := ⟨"Manual", .num 1, "", [], none⟩

theorem add_values_range_precedence_witness :
    freshManualMode.add_values rangeAndOptionsOpt =
      { freshManualMode with value_range := some ⟨1, 11⟩ } :=
  add_values_range_precedence freshManualMode rangeAndOptionsOpt
    (.obj [("min", .num 1), ("max", .num 10)]) ⟨1, 10⟩ rfl rfl

theorem listMin_insertInt (x : Int) (l : List Int) :
    listMin (insertInt x l) =
      some (match listMin l with
        | none => x
        | some m => min x m) := by
  induction l with
  | nil => simp [insertInt, listMin]
  | cons y ys ih =>
    simp only [insertInt]
    by_cases hxy : x ≤ y
    · rw [if_pos hxy]
      simp [listMin]
    · rw [if_neg hxy]
      simp only [listMin, ih]
      cases h : listMin ys with
      | none => simp [min_comm]
      | some m => simp [min_left_comm]

theorem listMax_insertInt (x : Int) (l : List Int) :
    listMax (insertInt x l) =
      some (match listMax l with
        | none => x
        | some m => max x m) := by
  induction l with
  | nil => simp [insertInt, listMax]
  | cons y ys ih =>
    simp only [insertInt]
    by_cases hxy : x ≤ y
    · rw [if_pos hxy]
      simp [listMax]
    · rw [if_neg hxy]
      simp only [listMax, ih]
      cases h : listMax ys with
      | none => simp [max_comm]
      | some m => simp [max_left_comm]

theorem listMin_sortInts (l : List Int) : listMin (sortInts l) = listMin l := by
  induction l with
  | nil => rfl
  | cons x xs ih => simp [sortInts, listMin_insertInt, ih, listMin]

theorem listMax_sortInts (l : List Int) : listMax (sortInts l) = listMax l := by
  induction l with
  | nil => rfl
  | cons x xs ih => simp [sortInts, listMax_insertInt, ih, listMax]

theorem sortedLe_tail (y : Int) (ys : List Int) (h : sortedLe (y :: ys) = true) :
    sortedLe ys = true := by
  cases ys with
  | nil => rfl
  | cons z zs =>
    simp only [sortedLe, Bool.and_eq_true] at h
    exact h.2

theorem sortedLe_head_le (y b : Int) (ys : List Int) (h : sortedLe (y :: ys) = true)
    (hb : ys.head? = some b) : y ≤ b := by
  cases ys with
  | nil => cases hb
  | cons z zs =>
    injection hb with hb
    subst hb
    simp only [sortedLe, Bool.and_eq_true, decide_eq_true_eq] at h
    exact h.1

theorem sortedLe_cons_of (a : Int) (l : List Int) (hl : sortedLe l = true)
    (hhead : ∀ b, l.head? = some b → a ≤ b) : sortedLe (a :: l) = true := by
  cases l with
  | nil => rfl
  | cons b bs => simp [sortedLe, hl, hhead b rfl]

theorem head_insertInt (x : Int) (l : List Int) (b : Int)
    (hb : (insertInt x l).head? = some b) : b = x ∨ l.head? = some b := by
  cases l with
  | nil =>
    simp only [insertInt, List.head?] at hb
    injection hb with hb
    exact Or.inl hb.symm
  | cons y ys =>
    simp only [insertInt] at hb
    by_cases hxy : x ≤ y
    · rw [if_pos hxy] at hb
      simp only [List.head?] at hb
      injection hb with hb
      exact Or.inl hb.symm
    · rw [if_neg hxy] at hb
      simp only [List.head?] at hb
      injection hb with hb
      exact Or.inr (by simp [hb])

theorem sortedLe_insertInt (x : Int) (l : List Int) (h : sortedLe l = true) :
    sortedLe (insertInt x l) = true := by
  induction l with
  | nil => rfl
  | cons y ys ih =>
    simp only [insertInt]
    by_cases hxy : x ≤ y
    · rw [if_pos hxy]
      simp [sortedLe, hxy, h]
    · rw [if_neg hxy]
      apply sortedLe_cons_of
      · exact ih (sortedLe_tail y ys h)
      · intro b hb
        rcases head_insertInt x ys b hb with rfl | hb'
        · exact le_of_not_le hxy
        · exact sortedLe_head_le y b ys h hb'

theorem sortedLe_sortInts (l : List Int) : sortedLe (sortInts l) = true := by
  induction l with
  | nil => rfl
  | cons x xs ih => exact sortedLe_insertInt x (sortInts xs) ih

theorem listMin_sorted_eq_head (l : List Int) (h : sortedLe l = true) :
    listMin l = l.head? := by
  induction l with
  | nil => rfl
  | cons x xs ih =>
    cases xs with
    | nil => simp [listMin]
    | cons y ys =>
      simp only [sortedLe, Bool.and_eq_true, decide_eq_true_eq] at h
      have h2 : listMin (y :: ys) = some y := by
        rw [ih h.2]; rfl
      show some _ = some x
      rw [h2]
      simp [min_eq_left h.1]

theorem checkRun_eq_unbrokenRun (l : List Int) : ∀ x, checkRun x (x :: l) = unbrokenRun (x :: l) := by
  induction l with
  | nil =>
    intro x
    simp [checkRun, unbrokenRun]
  | cons y ys ih =>
    intro x
    have hstep : checkRun x (x :: y :: ys) = checkRun (x + 1) (y :: ys) := by
      simp [checkRun]
    rw [hstep]
    by_cases h : y = x + 1
    · subst h
      rw [ih (x + 1)]
      have he : unbrokenRun (x :: (x + 1) :: ys) = unbrokenRun ((x + 1) :: ys) := by
        simp [unbrokenRun]
      rw [he]
    · have h' : ¬(x + 1 = y) := fun e => h e.symm
      have hl : checkRun (x + 1) (y :: ys) = false := by
        simp [checkRun, h]
      have hr' : unbrokenRun (x :: y :: ys) = false := by
        simp [unbrokenRun, h']
      rw [hl, hr']

theorem contiguous_value_range_eq (wm : WorkMode) (ints : List Int)
    (hr : wm.value_range = none) (hc : collectValues wm.values = some ints) :
    wm.contiguous_value_range =
      match listMin (sortInts ints), listMax (sortInts ints) with
      | some mn, some mx =>
        if checkRun mn (sortInts ints) then some ⟨mn, mx + 1⟩ else none
      | _, _ => none := by
  unfold WorkMode.contiguous_value_range
  rw [hr, hc]

/-- C1: for a WorkMode whose `value_range` is not already set and whose
discrete value list has no named entries and only integer values (exactly the
lists on which `collectValues` succeeds), `contiguous_value_range` returns
`Some(min..max+1)` iff the sorted values form an unbroken run of consecutive
integers from their minimum to their maximum, and `None` iff there is a gap. -/
theorem contiguous_value_range_iff (wm : WorkMode) (ints : List Int) (m M : Int)
    (hr : wm.value_range = none)
    (hc : collectValues wm.values = some ints)
    (hm : listMin ints = some m) (hM : listMax ints = some M) :
    (wm.contiguous_value_range = some ⟨m, M + 1⟩ ↔ unbrokenRun (sortInts ints) = true) ∧
      (wm.contiguous_value_range = none ↔ unbrokenRun (sortInts ints) = false) := by
  have hmin : listMin (sortInts ints) = some m := by rw [listMin_sortInts]; exact hm
  have hmax : listMax (sortInts ints) = some M := by rw [listMax_sortInts]; exact hM
  have hs := sortedLe_sortInts ints
  have hhead : (sortInts ints).head? = some m := by
    rw [← listMin_sorted_eq_head _ hs]; exact hmin
  obtain ⟨tail, htail⟩ : ∃ tail, sortInts ints = m :: tail := by
    cases hsl : sortInts ints with
    | nil => rw [hsl] at hhead; cases hhead
    | cons a t =>
      rw [hsl] at hhead
      simp only [List.head?] at hhead
      injection hhead with hh
      exact ⟨t, by rw [hh]⟩
  have hcheck : checkRun m (sortInts ints) = unbrokenRun (sortInts ints) := by
    rw [htail]; exact checkRun_eq_unbrokenRun tail m
  rw [contiguous_value_range_eq wm ints hr hc, hmin, hmax]
  rw [show (match some m, some M with
      | some mn, some mx =>
        if checkRun mn (sortInts ints) then some (⟨mn, mx + 1⟩ : IRange) else none
      | _, _ => none)
    = if checkRun m (sortInts ints) then some (⟨m, M + 1⟩ : IRange) else none from rfl]
  rw [hcheck]
  cases hu : unbrokenRun (sortInts ints) with
  | true => simp
  | false => simp

/-- The contiguous unnamed value set 1, 2, 3, 4. -/
def contigValuesMode : WorkMode :=
  ⟨"Normal", .num 1, "",
    [⟨.num 1, none, ""⟩, ⟨.num 2, none, ""⟩, ⟨.num 3, none, ""⟩, ⟨.num 4, none, ""⟩], none⟩

theorem contiguous_value_range_iff_witness :
    ((contigValuesMode.contiguous_value_range = some ⟨1, 5⟩ ↔
      unbrokenRun (sortInts [1, 2, 3, 4]) = true) ∧
    (contigValuesMode.contiguous_value_range = none ↔
      unbrokenRun (sortInts [1, 2, 3, 4]) = false)) :=
  contiguous_value_range_iff contigValuesMode [1, 2, 3, 4] 1 4 rfl rfl (by decide) (by decide)

theorem add_values_labels_ok (wm : WorkMode) (opt : EnumOption)
    (h : ∀ v ∈ wm.values, v.computed_label =
      "Activate " ++ wm.name ++ " Preset " ++
        (match v.name with
         | some s => s
         | none => v.value.render)) :
    ∀ v ∈ (wm.add_values opt).values, v.computed_label =
      "Activate " ++ (wm.add_values opt).name ++ " Preset " ++
        (match v.name with
         | some s => s
         | none => v.value.render) := by
  simp only [add_values_name]
  unfold WorkMode.add_values
  split
  · intro v hv
    exact h v hv
  · split
    · intro v hv
      exact h v hv
    · split
      · intro v hv
        simp at hv
      · intro v hv
        simp only [WorkMode.relabel, WorkMode.push_values, List.mem_map] at hv
        obtain ⟨u, hu, rfl⟩ := hv
        rfl

/-- C7: for every mode produced by `with_capability`, every entry of its
discrete `values` list (which is non-empty exactly when no contiguous range
was inferred) has `computed_label` equal to
`"Activate {mode-name} Preset {x}"`, where `x` is the entry's name when
present and the textual form of its raw value otherwise. -/
theorem with_capability_preset_labels (cap : DeviceCapability) (pw : ParsedWorkMode)
    (n : String) (wm : WorkMode) (v : WorkModeValue)
    (hok : ParsedWorkMode.with_capability cap = .ok pw)
    (hget : getMode pw.modes n = some wm)
    (hv : v ∈ wm.values) :
    v.computed_label = "Activate " ++ wm.name ++ " Preset " ++
      (match v.name with
       | some s => s
       | none => v.value.render) := by
  obtain ⟨wmf, hwmf, rfl⟩ := with_capability_ok cap pw hok
  revert v
  exact getMode_foldl_inv
    (fun w => ∀ v ∈ w.values, v.computed_label =
      "Activate " ++ w.name ++ " Preset " ++
        (match v.name with
         | some s => s
         | none => v.value.render))
    (fun w opt hw => add_values_labels_ok w opt hw)
    (modeValueOptions cap) (initialModes wmf)
    (fun n w h => by
      intro v hv
      rw [(getMode_initialModes wmf n w h).2.1] at hv
      simp at hv)
    n wm hget

def scenarioBNormal : WorkMode :=
  ⟨"Normal", .num 1, "",
    [⟨.num 1, none, "Activate Normal Preset 1"⟩,
     ⟨.num 2, none, "Activate Normal Preset 2"⟩,
     ⟨.num 4, none, "Activate Normal Preset 4"⟩], none⟩

def scenarioBParsed : ParsedWorkMode :=
  ⟨[("Normal", scenarioBNormal)]⟩

def presetOneValue : WorkModeValue :=
  ⟨.num 1, none, "Activate Normal Preset 1"⟩

theorem with_capability_preset_labels_witness :
    presetOneValue.computed_label =
      "Activate " ++ scenarioBNormal.name ++ " Preset " ++
        (match presetOneValue.name with
         | some s => s
         | none => presetOneValue.value.render) :=
  with_capability_preset_labels scenarioBCap scenarioBParsed "Normal" scenarioBNormal
    presetOneValue rfl rfl (List.mem_cons_self _ _)

/-- C8: `should_show_as_preset` is true iff the mode has neither a contiguous
value range nor a non-empty discrete values list; and a mode of
`with_capability`'s output with no matching `modeValue` entry has empty
`values`, `value_range = none`, and `should_show_as_preset() = true`. -/
theorem should_show_as_preset_iff (cap : DeviceCapability) (pw : ParsedWorkMode)
    (n : String)
    (hok : ParsedWorkMode.with_capability cap = .ok pw)
    (hnotin : n ∉ (modeValueOptions cap).map EnumOption.name) :
    (∀ w : WorkMode, w.should_show_as_preset = true ↔
      (w.contiguous_value_range = none ∧ w.values = [])) ∧
    (∀ wm, getMode pw.modes n = some wm →
      wm.values = [] ∧ wm.value_range = none ∧ wm.should_show_as_preset = true) := by
  constructor
  · intro w
    unfold WorkMode.should_show_as_preset
    rw [Bool.and_eq_true]
    constructor
    · rintro ⟨h1, h2⟩
      refine ⟨Option.isNone_iff_eq_none.mp h1, ?_⟩
      simpa using h2
    · rintro ⟨h1, h2⟩
      exact ⟨by simp [h1], by simp [h2]⟩
  · intro wm hget
    obtain ⟨wmf, hwmf, rfl⟩ := with_capability_ok cap pw hok
    rw [getMode_foldl_not_mem _ _ _ hnotin] at hget
    have h := getMode_initialModes wmf n wm hget
    refine ⟨h.2.1, h.2.2, ?_⟩
    unfold WorkMode.should_show_as_preset
    rw [contiguous_value_range_fresh wm h.2.1 h.2.2, h.2.1]
    rfl

/-- A capability with a mode `Auto` that has no `modeValue` entry at all,
alongside a mode `Normal` with a gapped value set. -/
def scenarioCCap : DeviceCapability :=
  { kind := "devices.capabilities.work_mode"
    instance' := "workMode"
    parameters := some (.struct'
      [ .mk "workMode" (.enum [⟨"Auto", .num 3, []⟩, ⟨"Normal", .num 1, []⟩]) none true
      , .mk "modeValue" (.enum
          [ ⟨"Normal", .null,
              [("options", .arr
                [ .obj [("value", .num 1)], .obj [("value", .num 2)]
                , .obj [("value", .num 4)] ])] ⟩ ]) none true ]) }

def scenarioCParsed : ParsedWorkMode :=
  ⟨[("Auto", ⟨"Auto", .num 3, "", [], none⟩), ("Normal", scenarioBNormal)]⟩

theorem should_show_as_preset_iff_witness :
    ((∀ w : WorkMode, w.should_show_as_preset = true ↔
      (w.contiguous_value_range = none ∧ w.values = [])) ∧
    (∀ wm, getMode scenarioCParsed.modes "Auto" = some wm →
      wm.values = [] ∧ wm.value_range = none ∧ wm.should_show_as_preset = true)) :=
  should_show_as_preset_iff scenarioCCap scenarioCParsed "Auto" rfl (by decide)

theorem getMode_map_all (f : WorkMode → WorkMode) (m : List (String × WorkMode)) (n : String) :
    getMode (m.map (fun p => (p.1, f p.2))) n = (getMode m n).map f := by
  induction m with
  | nil => rfl
  | cons p rest ih =>
    obtain ⟨k, w⟩ := p
    simp only [List.map_cons, getMode]
    by_cases hk : k = n
    · simp [hk]
    · simp [hk, ih]

/-- C9: `adjust_for_device` with SKU H7131 rewrites the label of the mode
named `gearMode` to `Heat` (leaving absence as absence), and for every SKU
outside the override table every mode's label becomes the mode's own name. -/
theorem adjust_for_device_h7131_default (pw : ParsedWorkMode) (sku : String) :
    (getMode (pw.adjust_for_device "H7131").modes "gearMode"
      = (getMode pw.modes "gearMode").map (fun m => { m with label := "Heat" })) ∧
    (sku ≠ "H7160" → sku ≠ "H7143" → sku ≠ "H7131" →
      ∀ n, getMode (pw.adjust_for_device sku).modes n
        = (getMode pw.modes n).map setLabelToName) := by
  constructor
  · unfold ParsedWorkMode.adjust_for_device
    rw [if_neg (by decide), if_pos rfl, getMode_updateMode]
    simp
  · intro h1 h2 h3 n
    unfold ParsedWorkMode.adjust_for_device
    rw [if_neg (not_or.mpr ⟨h1, h2⟩), if_neg h3]
    exact getMode_map_all _ pw.modes n

def gearParsed : ParsedWorkMode :=
  ⟨[("gearMode", ⟨"gearMode", .num 1, "", [], none⟩)]⟩

theorem adjust_for_device_h7131_default_witness :
    ((getMode (gearParsed.adjust_for_device "H7131").modes "gearMode"
      = (getMode gearParsed.modes "gearMode").map (fun m => { m with label := "Heat" })) ∧
    (∀ n, getMode (gearParsed.adjust_for_device "H9999").modes n
      = (getMode gearParsed.modes n).map setLabelToName)) :=
  ⟨(adjust_for_device_h7131_default gearParsed "H9999").1,
   (adjust_for_device_h7131_default gearParsed "H9999").2
     (by decide) (by decide) (by decide)⟩

theorem with_capability_label_empty (cap : DeviceCapability) (pw : ParsedWorkMode)
    (n : String) (wm : WorkMode)
    (hok : ParsedWorkMode.with_capability cap = .ok pw)
    (hget : getMode pw.modes n = some wm) : wm.label = "" := by
  obtain ⟨wmf, hwmf, rfl⟩ := with_capability_ok cap pw hok
  exact getMode_foldl_inv (fun w => w.label = "")
    (fun w opt hw => by
      show (w.add_values opt).label = ""
      rw [add_values_label]
      exact hw)
    (modeValueOptions cap) (initialModes wmf)
    (fun n w h => (getMode_initialModes wmf n w h).1) n wm hget

/-- C10: `label()` returns the mode's name when the `label` field is empty and
the field otherwise; consequently, after `adjust_for_device` with a table SKU
(H7160, H7143, H7131), any mode other than the overridden one still has an
empty `label` field, yet its effective display label equals its own name. -/
theorem label_method_table_skus (cap : DeviceCapability) (pw : ParsedWorkMode)
    (sku n : String)
    (hok : ParsedWorkMode.with_capability cap = .ok pw)
    (htable : sku = "H7160" ∨ sku = "H7143" ∨ sku = "H7131")
    (hman : (sku = "H7160" ∨ sku = "H7143") → n ≠ "Manual")
    (hgear : sku = "H7131" → n ≠ "gearMode") :
    (∀ w : WorkMode, w.label' = if w.label = "" then w.name else w.label) ∧
    (∀ wm, getMode (pw.adjust_for_device sku).modes n = some wm →
      wm.label = "" ∧ wm.label' = wm.name) := by
  refine ⟨fun w => rfl, ?_⟩
  intro wm hget
  have hbase : getMode (pw.adjust_for_device sku).modes n = getMode pw.modes n := by
    unfold ParsedWorkMode.adjust_for_device
    rcases htable with h | h | h
    · rw [if_pos (Or.inl h), getMode_updateMode, if_neg (hman (Or.inl h))]
    · rw [if_pos (Or.inr h), getMode_updateMode, if_neg (hman (Or.inr h))]
    · have hne : ¬(sku = "H7160" ∨ sku = "H7143") := by subst h; decide
      rw [if_neg hne, if_pos h, getMode_updateMode, if_neg (hgear h)]
  rw [hbase] at hget
  have hlabel := with_capability_label_empty cap pw n wm hok hget
  refine ⟨hlabel, ?_⟩
  unfold WorkMode.label'
  rw [if_pos hlabel]

theorem label_method_table_skus_witness :
    ((∀ w : WorkMode, w.label' = if w.label = "" then w.name else w.label) ∧
    (∀ wm, getMode (scenarioCParsed.adjust_for_device "H7131").modes "Auto" = some wm →
      wm.label = "" ∧ wm.label' = wm.name)) :=
  label_method_table_skus scenarioCCap scenarioCParsed "H7131" "Auto" rfl
    (Or.inr (Or.inr rfl)) (by decide) (fun _ => by decide)

/-- C6: `with_device` returns an error exactly when the device has no
`http_device_info`, or the info has no `workMode` capability, or that
capability has no `workMode` struct field. Since `with_capability` is total on
every other input, malformed `extras` sub-schemas never cause an error. -/
theorem with_device_error_iff (d : Device) :
    isErr (ParsedWorkMode.with_device d) = true ↔
      (d.http_device_info = none
       ∨ (∃ info, d.http_device_info = some info ∧
            info.capability_by_instance "workMode" = none)
       ∨ (∃ info cap, d.http_device_info = some info ∧
            info.capability_by_instance "workMode" = some cap ∧
            cap.struct_field_by_name "workMode" = none)) := by
  unfold ParsedWorkMode.with_device
  cases hinfo : d.http_device_info with
  | none => simp [isErr]
  | some info =>
    cases hcap : info.capability_by_instance "workMode" with
    | none => simp [isErr, hcap]
    | some cap =>
      cases hwmf : cap.struct_field_by_name "workMode" with
      | none =>
        have hwc : ParsedWorkMode.with_capability cap = .error "workMode not found" := by
          unfold ParsedWorkMode.with_capability
          rw [hwmf]
        simp [isErr, hcap, hwc, hwmf]
      | some wmf =>
        have hwc : ParsedWorkMode.with_capability cap
            = .ok ((modeValueOptions cap).foldl applyModeValue (initialModes wmf)) := by
          unfold ParsedWorkMode.with_capability
          rw [hwmf]
        simp [isErr, hcap, hwc, hwmf]

theorem countP_poll_cycle (hasClient : Bool) (now : Int) (d : Device) :
    ∀ (devices : List Device), d ∈ devices →
      devices.Pairwise (fun a b => a.sku ≠ b.sku ∨ a.id ≠ b.id) →
      (poll_cycle_fetches hasClient now devices).countP
          (fun e => e.sku == d.sku && e.id == d.id)
        = if poll_single_device_fetches hasClient now d then 1 else 0
  | [], hmem, _ => absurd hmem (List.not_mem_nil d)
  | x :: rest, hmem, hp => by
    have hp' := List.pairwise_cons.mp hp
    rcases List.mem_cons.mp hmem with rfl | hmem'
    · have hrest : ∀ e ∈ rest, ¬((e.sku == d.sku && e.id == d.id) = true) := by
        intro e he hc
        simp only [Bool.and_eq_true, beq_iff_eq] at hc
        rcases hp'.1 e he with h | h
        · exact h hc.1.symm
        · exact h hc.2.symm
      have hzero : (poll_cycle_fetches hasClient now rest).countP
          (fun e => e.sku == d.sku && e.id == d.id) = 0 := by
        rw [List.countP_eq_zero]
        intro e he
        exact hrest e (List.mem_of_mem_filter he)
      unfold poll_cycle_fetches at hzero ⊢
      rw [List.filter_cons]
      cases hd : poll_single_device_fetches hasClient now d
      · rw [if_neg (by simp [hd])]
        rw [hzero]
        simp
      · rw [if_pos (by simp [hd])]
        rw [List.countP_cons, hzero]
        simp
    · have hx : ¬((x.sku == d.sku && x.id == d.id) = true) := by
        intro hc
        simp only [Bool.and_eq_true, beq_iff_eq] at hc
        rcases hp'.1 d hmem' with h | h
        · exact h hc.1
        · exact h hc.2
      have hr := countP_poll_cycle hasClient now d rest hmem' hp'.2
      unfold poll_cycle_fetches at hr ⊢
      rw [List.filter_cons]
      cases hxf : poll_single_device_fetches hasClient now x
      · rw [if_neg (by simp [hxf])]
        exact hr
      · rw [if_pos (by simp [hxf])]
        rw [List.countP_cons, hr]
        simp [hx]

/-- C2: in a pass of the staleness cycle each snapshot device is considered
once; the fetch decision of `poll_single_device` is true iff the cloud state
is absent or older than 900 seconds AND no LAN record is present AND a
platform client is configured AND the cloud descriptor is present; a device
with a LAN record is never fetched; with pairwise-distinct identities, a
selected device is fetched exactly once per cycle and an unselected one zero
times. -/
theorem poll_single_device_fetches_iff (hasClient : Bool) (now : Int) (d : Device)
    (devices : List Device)
    (hmem : d ∈ devices)
    (hids : devices.Pairwise (fun a b => a.sku ≠ b.sku ∨ a.id ≠ b.id)) :
    (poll_single_device_fetches hasClient now d = true ↔
      ((d.http_device_state = none ∨
          ∃ st, d.http_device_state = some st ∧ now - st.updated > 900) ∧
        d.lan_device = none ∧ hasClient = true ∧ d.http_device_info.isSome = true)) ∧
    (d.lan_device.isSome = true → poll_single_device_fetches hasClient now d = false) ∧
    ((poll_cycle_fetches hasClient now devices).countP
        (fun e => e.sku == d.sku && e.id == d.id)
      = if poll_single_device_fetches hasClient now d then 1 else 0) := by
  refine ⟨?_, ?_, countP_poll_cycle hasClient now d devices hmem hids⟩
  · unfold poll_single_device_fetches needs_update Device.device_state
    cases hst : d.http_device_state <;>
      cases hlan : d.lan_device <;>
      cases hasClient <;>
      cases hinfo : d.http_device_info <;>
        (simp; try omega)
  · intro hlan
    unfold poll_single_device_fetches
    cases hneeds : needs_update now d
    · simp
    · simp [hlan]

def pollInfo : HttpDeviceInfo := ⟨"H1", "dev1", []⟩

def pollDevice : Device := ⟨"H1", "dev1", some pollInfo, none, none⟩

theorem poll_single_device_fetches_iff_witness :
    ((poll_single_device_fetches true 1000 pollDevice = true ↔
      ((pollDevice.http_device_state = none ∨
          ∃ st, pollDevice.http_device_state = some st ∧ 1000 - st.updated > 900) ∧
        pollDevice.lan_device = none ∧ true = true ∧
        pollDevice.http_device_info.isSome = true)) ∧
    (pollDevice.lan_device.isSome = true →
      poll_single_device_fetches true 1000 pollDevice = false) ∧
    ((poll_cycle_fetches true 1000 [pollDevice]).countP
        (fun e => e.sku == pollDevice.sku && e.id == pollDevice.id)
      = if poll_single_device_fetches true 1000 pollDevice then 1 else 0)) :=
  poll_single_device_fetches_iff true 1000 pollDevice [pollDevice]
    (List.mem_singleton.mpr rfl) (List.pairwise_singleton _ _)
